import Mathlib

/-!
Verification of the conversational-state and message-segmentation engine of
an IRC chatbot (`main.go`).  The Go source is shallowly embedded: strings are
modelled as `String` / `List Char` (Go byte lengths coincide with character
counts on the ASCII fragment these claims exercise), the mutable
`bot.context` slice becomes an explicit `List Message` threaded through the
operations, and the HTTP round trip becomes an explicit `GenResult`
parameter.  All definitions are executable.
-/

namespace Chatbot

/-- A chat message kept in the conversation context (Go struct `Message`). -/
structure Message where
  role : String
  content : String
deriving DecidableEq, Repr

/-! ### Character classes

`isSpaceGo` is Go's `unicode.IsSpace` (used by `strings.Fields` and
`strings.TrimSpace`); `isRegexSpace` is RE2's `\s` class `[\t\n\f\r ]`
(used by the regular expressions in the source). -/

/-- Go `unicode.IsSpace`: the Unicode white-space code points. -/
def isSpaceGo (c : Char) : Bool :=
  let n := c.toNat
  (9 ≤ n && n ≤ 13) || n == 32 || n == 0x85 || n == 0xA0 || n == 0x1680 ||
    (0x2000 ≤ n && n ≤ 0x200A) || n == 0x2028 || n == 0x2029 || n == 0x202F ||
    n == 0x205F || n == 0x3000

/-- RE2's character class `\s`, namely `[\t\n\f\r ]`. -/
def isRegexSpace (c : Char) : Bool :=
  c == '\t' || c == '\n' || c == '\x0c' || c == '\r' || c == ' '

/-- Sentence-terminator characters of the split pattern `[.!?]+\s+`. -/
def isTermChar (c : Char) : Bool :=
  c == '.' || c == '!' || c == '?'

/-! ### Context buffer (`NewIRCBot` initialisation and `addToContext`) -/

/-- The initial context built by `NewIRCBot`: a single system entry holding
the persona when `config.Persona != ""`, otherwise empty. -/
def initContext (persona : String) : List Message :=
  if persona = "" then [] else [⟨"system", persona⟩]

/-- Go `addToContext`: append, then if the window exceeds 19 entries rebuild
it as `context[0]` followed by the most recent 18 entries.  (The `[]` branch
of the inner match is unreachable: `ctx ++ [m]` is never empty.) -/
def addToContext (ctx : List Message) (m : Message) : List Message :=
  let c := ctx ++ [m]
  if 19 < c.length then
    match c with
    | [] => []
    | h :: _ => h :: c.drop (c.length - 18)
  else c

/-! ### `strings.Fields` -/

/-- Accumulator-passing core of `strings.Fields`: `acc` holds the reversed
characters of the word currently being read. -/
def fieldsAux (acc : List Char) : List Char → List (List Char)
  | [] => if acc = [] then [] else [acc.reverse]
  | c :: rest =>
    if isSpaceGo c then
      if acc = [] then fieldsAux [] rest else acc.reverse :: fieldsAux [] rest
    else
      fieldsAux (c :: acc) rest

/-- Go `strings.Fields`: split around runs of white space, dropping empties. -/
def fieldsL (l : List Char) : List (List Char) :=
  fieldsAux [] l

/-! ### The sentence split `regexp.MustCompile("[.!?]+\\s+").Split(text, -1)`

A match of `[.!?]+\s+` starts at a terminator character whose maximal
terminator run is immediately followed by white space; the match consumes
that run and the following maximal run of white space (RE2 leftmost
semantics with greedy quantifiers). -/

/-- Splitting on `[.!?]+\s+`, accumulator-passing: `acc` holds the reversed
characters of the fragment currently being read.  The first argument is
recursion fuel: every recursive call consumes at least one input character,
so any fuel above the input length gives the untruncated scan (`splitSentL`
passes `l.length + 1`); the fuel-0 branch is unreachable from there. -/
def splitSentAux : Nat → List Char → List Char → List (List Char)
  | 0, acc, l => [acc.reverse ++ l]
  | _ + 1, acc, [] => [acc.reverse]
  | fuel + 1, acc, c :: rest =>
    if isTermChar c then
      match rest.dropWhile isTermChar with
      | [] =>
        -- the terminator run reaches the end of the input: no match
        [acc.reverse ++ c :: rest]
      | a :: after' =>
        if isRegexSpace a then
          -- match: flush the fragment, skip the run and the white space
          acc.reverse :: splitSentAux fuel [] (after'.dropWhile isRegexSpace)
        else
          -- run not followed by white space: it belongs to the fragment
          splitSentAux fuel ((c :: rest.takeWhile isTermChar).reverse ++ acc)
            (a :: after')
    else
      splitSentAux fuel (c :: acc) rest

/-- `regexp.MustCompile("[.!?]+\\s+").Split(text, -1)` from `sendResponse`. -/
def splitSentL (l : List Char) : List (List Char) :=
  splitSentAux (l.length + 1) [] l

/-! ### Segmentation (`sendResponse`, with the length budget as a parameter;
the source fixes `maxLength = 400`) -/

/-- One iteration of the inner word loop of `sendResponse`.  The state is
`(emitted chunks, currentMsg)`. -/
def stepWordL (maxLen : Nat) (st : List (List Char) × List Char)
    (w : List Char) : List (List Char) × List Char :=
  let out := st.1
  let cur := st.2
  if cur.length + w.length + 1 ≤ maxLen then
    (out, if cur = [] then w else cur ++ ' ' :: w)
  else
    ((if cur = [] then out else out ++ [cur]), w)

/-- One iteration of the outer sentence loop of `sendResponse`. -/
def stepSentL (maxLen : Nat) (st : List (List Char) × List Char)
    (s : List Char) : List (List Char) × List Char :=
  let out := st.1
  let cur := st.2
  if cur.length + s.length + 1 ≤ maxLen then
    (out, if cur = [] then s else cur ++ ' ' :: s)
  else
    let out' := if cur = [] then out else out ++ [cur]
    if maxLen < s.length then
      (fieldsL s).foldl (stepWordL maxLen) (out', [])
    else
      (out', s)

/-- The chunks `sendResponse` emits (each chunk is one `Privmsg` line), in
emission order. -/
def segmentL (maxLen : Nat) (text : List Char) : List (List Char) :=
  if text.length ≤ maxLen then [text]
  else
    let st := (splitSentL text).foldl (stepSentL maxLen) ([], [])
    if st.2 = [] then st.1 else st.1 ++ [st.2]

/-- String-level wrapper of `segmentL`. -/
def segment (text : String) (maxLen : Nat) : List String :=
  (segmentL maxLen text.data).map String.mk

/-- Rejoining chunks with single spaces (the spec's reconstruction). -/
def joinSp : List (List Char) → List Char
  | [] => []
  | [a] => a
  | a :: b :: t => a ++ ' ' :: joinSp (b :: t)

/-- The word sequence of a chunk list: each chunk's `strings.Fields`,
concatenated in order.  Two texts with the same word sequence are equal up
to intra-whitespace normalization. -/
def wordsOfChunks (xs : List (List Char)) : List (List Char) :=
  (xs.map fieldsL).join

/-- The word sequence carried by a segmentation state
`(emitted chunks, currentMsg)`. -/
def wordsOfSt (st : List (List Char) × List Char) : List (List Char) :=
  wordsOfChunks st.1 ++ fieldsL st.2

/-- A chunk allowed by claim C3: within the length budget, or a single
word (non-empty and containing no white space). -/
def ChunkOK (maxLen : Nat) (c : List Char) : Prop :=
  c.length ≤ maxLen ∨ (c ≠ [] ∧ ∀ ch ∈ c, isSpaceGo ch = false)

/-- Segmentation-state invariant for C3: every emitted chunk is `ChunkOK`
and the pending `currentMsg` is empty or `ChunkOK`. -/
def StOK (maxLen : Nat) (st : List (List Char) × List Char) : Prop :=
  (∀ c ∈ st.1, ChunkOK maxLen c) ∧ (st.2 = [] ∨ ChunkOK maxLen st.2)

/-- Segmentation-state invariant for C9: no emitted chunk is empty. -/
def OutNonempty (st : List (List Char) × List Char) : Prop :=
  ∀ c ∈ st.1, c ≠ []

/-! ### Trigger decision (`shouldRespondToMessage` and the `handleMessage`
engagement test).  The configured trigger regular expression is modelled
abstractly as an optional predicate on the message text. -/

/-- The bot configuration fields the message path uses. -/
structure Config where
  nick : String
  triggerPattern : Option (String → Bool)

/-- Go `strings.ToLower` restricted to ASCII case mapping (all inputs the
claims exercise are ASCII). -/
def toLowerL (l : List Char) : List Char :=
  l.map Char.toLower

/-- Go `strings.Contains l sub`: `sub` occurs as a contiguous substring. -/
def containsL : List Char → List Char → Bool
  | [], sub => sub.isEmpty
  | c :: t, sub => sub.isPrefixOf (c :: t) || containsL t sub

/-- Go `shouldRespondToMessage`: name mention (case-insensitive substring),
else trigger pattern if configured, else false. -/
def shouldRespondToMessage (cfg : Config) (message : String) : Bool :=
  if containsL (toLowerL message.data) (toLowerL cfg.nick.data) then true
  else
    match cfg.triggerPattern with
    | some pat => pat message
    | none => false

/-- The engagement test of `handleMessage`:
`isPrivateMessage || shouldRespondToMessage(message)`. -/
def shouldEngage (message nick : String) (directed : Bool)
    (pat : Option (String → Bool)) : Bool :=
  directed || shouldRespondToMessage ⟨nick, pat⟩ message

/-! ### Message cleaning (`cleanMessage`)

The Go code replaces every match of `(?i)<nick>[,:]\s*` by the empty string
(RE2 scans left to right, each match taking the literal nick
case-insensitively, one of `,`/`:`, then the maximal run of `\s`), then
trims white space, then substitutes `"Hello!"` for an empty result. -/

/-- Case-insensitive literal-pattern removal at the head: if `l` starts with
`pat` (ASCII case-insensitively), return the remainder. -/
def stripCI : List Char → List Char → Option (List Char)
  | [], l => some l
  | _ :: _, [] => none
  | p :: ps, c :: cs =>
    if p.toLower = c.toLower then stripCI ps cs else none

/-- Try to match `(?i)<nick>[,:]\s*` at the head of `l`; on success return
the suffix after the match. -/
def mentionMatch (nick l : List Char) : Option (List Char) :=
  match stripCI nick l with
  | none => none
  | some [] => none
  | some (c :: r') =>
    if c = ':' ∨ c = ',' then some (r'.dropWhile isRegexSpace) else none

/-- `regexp.ReplaceAllString(message, "")` for the mention pattern: scan
left to right deleting every match.  Fueled like `splitSentAux`: a match
consumes at least the `[,:]` character, a non-match advances one character,
so fuel `l.length + 1` (supplied by `removeMentions`) gives the full scan. -/
def removeMentionsAux : Nat → List Char → List Char → List Char
  | 0, _, l => l
  | fuel + 1, nick, l =>
    match l with
    | [] => []
    | c :: rest =>
      match mentionMatch nick (c :: rest) with
      | some r => removeMentionsAux fuel nick r
      | none => c :: removeMentionsAux fuel nick rest

/-- `regexp.MustCompile("(?i)<nick>[,:]\\s*").ReplaceAllString(l, "")`. -/
def removeMentions (nick l : List Char) : List Char :=
  removeMentionsAux (l.length + 1) nick l

/-- Go `strings.TrimSpace`: drop `unicode.IsSpace` characters on both ends. -/
def goTrimSpaceL (l : List Char) : List Char :=
  ((l.dropWhile isSpaceGo).reverse.dropWhile isSpaceGo).reverse

/-- Go `cleanMessage`: strip mentions, trim, substitute `"Hello!"` if
empty. -/
def cleanMessage (nick message : String) : String :=
  let cleaned := String.mk (goTrimSpaceL (removeMentions nick.data message.data))
  if cleaned = "" then "Hello!" else cleaned

/-! ### AI-response sanitization (`cleanAIResponse`) -/

/-- Strip the first matching label of `["Assistant: ", "Bot: ", "AI: "]`
from the start (Go loops with `break` after the first hit). -/
def stripLabel : List String → String → String
  | [], r => r
  | p :: ps, r =>
    if p.data.isPrefixOf r.data then String.mk (r.data.drop p.data.length)
    else stripLabel ps r

/-- Suffix after the first `'>'`, if any. -/
def findGt : List Char → Option (List Char)
  | [] => none
  | c :: rest => if c = '>' then some rest else findGt rest

/-- `regexp.MustCompile("<[^>]*>").ReplaceAllString(r, "")`: a match starts
at `'<'` and runs through the first following `'>'`; without a closing
`'>'` nothing past this point can match.  Fueled like `splitSentAux`. -/
def removeTagsAux : Nat → List Char → List Char
  | 0, l => l
  | fuel + 1, l =>
    match l with
    | [] => []
    | c :: rest =>
      if c = '<' then
        match findGt rest with
        | some rest' => removeTagsAux fuel rest'
        | none => c :: rest
      else
        c :: removeTagsAux fuel rest

/-- `regexp.MustCompile("<[^>]*>").ReplaceAllString(l, "")`. -/
def removeTagsL (l : List Char) : List Char :=
  removeTagsAux (l.length + 1) l

/-- `regexp.MustCompile("\\s+").ReplaceAllString(r, " ")`: collapse runs of
`\s` into a single space.  `prevSpace` records whether the previous
character belonged to a run already replaced. -/
def collapseWSAux (prevSpace : Bool) : List Char → List Char
  | [] => []
  | c :: rest =>
    if isRegexSpace c then
      if prevSpace then collapseWSAux true rest
      else ' ' :: collapseWSAux true rest
    else
      c :: collapseWSAux false rest

/-- Go `cleanAIResponse`: strip one role label, strip tags, collapse white
space, trim. -/
def cleanAIResponse (response : String) : String :=
  let r := stripLabel ["Assistant: ", "Bot: ", "AI: "] response
  let r := String.mk (removeTagsL r.data)
  let r := String.mk (collapseWSAux false r.data)
  String.mk (goTrimSpaceL r.data)

/-! ### The round trip (`getAIResponse`) and the handler (`handleMessage`)

The HTTP call is modelled by an explicit `GenResult` argument: either a
transport error or a status code with a plain-text body. -/

/-- Outcome of the `http.Client.Get` call to the text generator. -/
inductive GenResult where
  | transportError : GenResult
  | status : Nat → String → GenResult

/-- The call failed: transport error or non-200 status. -/
def genFails : GenResult → Bool
  | .transportError => true
  | .status code _ => code ≠ 200

/-- Go `getAIResponse`: append the user entry, then on success sanitize the
body and append the assistant entry; on failure return the error (modelled
as `none`) leaving only the user entry appended. -/
def getAIResponse (ctx : List Message) (message fromNick : String)
    (gen : GenResult) : List Message × Option String :=
  let ctx1 := addToContext ctx ⟨"user", fromNick ++ ": " ++ message⟩
  match gen with
  | .transportError => (ctx1, none)
  | .status code body =>
    if code ≠ 200 then (ctx1, none)
    else
      let aiResponse := cleanAIResponse (String.mk (goTrimSpaceL body.data))
      (addToContext ctx1 ⟨"assistant", aiResponse⟩, some aiResponse)

/-- Go `handleMessage`: skip own messages, test engagement, clean, run the
round trip, and on success send the segmented reply (the source uses
`maxLength = 400`).  Returns the new context and the sent
`(target, line)` pairs. -/
def handleMessage (cfg : Config) (ctx : List Message)
    (sender target message : String) (gen : GenResult) :
    List Message × List (String × String) :=
  if sender = cfg.nick then (ctx, [])
  else
    let isPrivate : Bool := decide (target = cfg.nick)
    if isPrivate || shouldRespondToMessage cfg message then
      let cm := cleanMessage cfg.nick message
      let res := getAIResponse ctx cm sender gen
      match res.2 with
      | none => (res.1, [])
      | some response =>
        let responseTarget := if isPrivate then sender else target
        (res.1, (segment response 400).map (fun chunk => (responseTarget, chunk)))
    else (ctx, [])

/-! ### Prompt serialization (`buildPrompt`) -/

/-- Go `buildPrompt`: fold the window in order, rendering each entry by its
role switch, and finish with the `"Assistant: "` cue.  A pure read of the
context. -/
def buildPrompt (ctx : List Message) : String :=
  (ctx.foldl (fun acc m =>
    if m.role = "system" then acc ++ "System: " ++ m.content ++ "\n"
    else if m.role = "user" then acc ++ "User: " ++ m.content ++ "\n"
    else if m.role = "assistant" then acc ++ "Assistant: " ++ m.content ++ "\n"
    else acc) "") ++ "Assistant: "

/-- The fixed capitalized role label of the specification. -/
def roleLabel (role : String) : String :=
  if role = "system" then "System"
  else if role = "user" then "User"
  else "Assistant"

/-- Rendering of one entry as described by the specification:
`"<RoleLabel>: <content>\n"`. -/
def renderEntry (m : Message) : String :=
  roleLabel m.role ++ ": " ++ m.content ++ "\n"

/-! ## Context-buffer lemmas -/

theorem addToContext_small {ctx : List Message} (m : Message)
    (h : ctx.length ≤ 18) : addToContext ctx m = ctx ++ [m] := by
  unfold addToContext
  have hc : ¬ 19 < (ctx ++ [m]).length := by
    simp only [List.length_append, List.length_cons, List.length_nil]
    omega
  simp only [if_neg hc]

theorem addToContext_full {S : List Message} (e m : Message)
    (h : S.length = 18) :
    addToContext (e :: S) m = e :: (S ++ [m]).drop 1 := by
  unfold addToContext
  have hc : 19 < (e :: (S ++ [m])).length := by
    simp only [List.length_append, List.length_cons, List.length_nil]
    omega
  have hlen : (e :: (S ++ [m])).length - 18 = 2 := by
    simp only [List.length_cons, List.length_append, List.length_nil]
    omega
  simp only [List.cons_append]
  rw [if_pos hc, hlen]
  rfl

/-- Folding appends over a window `e :: S` (entry 0 plus at most 18 recent
entries): the result is entry 0 followed by the last 18 of `S ++ msgs`
(all of it, when shorter than 18). -/
theorem foldl_addToContext_cons (msgs : List Message) (e : Message)
    (S : List Message) (hS : S.length ≤ 18) :
    msgs.foldl addToContext (e :: S) =
      e :: (S ++ msgs).drop ((S ++ msgs).length - 18) := by
  induction msgs generalizing S with
  | nil =>
    have : S.length - 18 = 0 := by omega
    simp [this]
  | cons m rest ih =>
    rw [List.foldl_cons]
    rcases Nat.lt_or_ge S.length 18 with hlt | hge
    · -- no eviction on this append
      have hstep : addToContext (e :: S) m = e :: (S ++ [m]) := by
        rw [addToContext_small m (by simp; omega)]
        simp
      rw [hstep, ih (S ++ [m]) (by simp; omega)]
      simp only [List.append_assoc, List.singleton_append]
    · -- the window is full: evict the oldest non-pinned entry
      have h18 : S.length = 18 := Nat.le_antisymm hS hge
      rw [addToContext_full e m h18,
        ih ((S ++ [m]).drop 1) (by simp [h18])]
      have hSnn : 1 ≤ S.length := by omega
      have hd : (S ++ [m]).drop 1 ++ rest = ((S ++ m :: rest).drop 1) := by
        rw [List.drop_append_of_le_length hSnn,
          List.drop_append_of_le_length hSnn]
        simp
      rw [hd, List.drop_drop]
      have hidx : 1 + ((List.drop 1 (S ++ m :: rest)).length - 18) =
          (S ++ m :: rest).length - 18 := by
        simp only [List.length_drop, List.length_append, List.length_cons, h18]
        omega
      rw [hidx]

/-! ## Claim C1 -/

/-- C1: for every sequence of appends on the context buffer, after each
append the window holds at most 19 entries, and if the buffer was
initialised with a non-empty persona the persona entry is still at index 0
with its original content.  (Every intermediate state is the final state of
a prefix of `msgs`, so quantifying over all `msgs` covers "after each
append".) -/
theorem context_bounded_and_persona_pinned (persona : String)
    (msgs : List Message) :
    (msgs.foldl addToContext (initContext persona)).length ≤ 19 ∧
    (persona ≠ "" →
      (msgs.foldl addToContext (initContext persona)).head? =
        some ⟨"system", persona⟩) := by
  by_cases hp : persona = ""
  · subst hp
    refine ⟨?_, fun h => absurd rfl h⟩
    cases msgs with
    | nil => simp [initContext]
    | cons m rest =>
      have hinit : initContext "" = [] := by simp [initContext]
      have h1 : addToContext [] m = [m] := by
        rw [addToContext_small m (by simp)]
        simp
      rw [List.foldl_cons, hinit, h1,
        foldl_addToContext_cons rest m [] (by simp)]
      simp only [List.nil_append, List.length_cons, List.length_drop]
      omega
  · have hinit : initContext persona = [⟨"system", persona⟩] := by
      simp [initContext, hp]
    rw [hinit, foldl_addToContext_cons msgs ⟨"system", persona⟩ [] (by simp)]
    constructor
    · simp only [List.nil_append, List.length_cons, List.length_drop]
      omega
    · intro _
      simp

/-- Witness for C1 at persona `"P"` and one appended entry. -/
theorem context_bounded_and_persona_pinned_witness :
    (([⟨"user", "a"⟩] : List Message).foldl addToContext
        (initContext "P")).length ≤ 19 ∧
    (([⟨"user", "a"⟩] : List Message).foldl addToContext
        (initContext "P")).head? = some ⟨"system", "P"⟩ :=
  ⟨(context_bounded_and_persona_pinned "P" [⟨"user", "a"⟩]).1,
   (context_bounded_and_persona_pinned "P" [⟨"user", "a"⟩]).2 (by decide)⟩

/-! ## Claim C2 -/

/-- Distinct messages used for the C2 counterexample and witness. -/
def cMsg (i : Nat) : Message :=
  ⟨"user", String.mk (List.replicate i 'a')⟩

/-- The first `n` of the `cMsg` messages. -/
def cMsgs (n : Nat) : List Message :=
  (List.range n).map cMsg

/-- C2 counterexample: with no persona entry, appending 20 entries does NOT
retain the most recent 19 (`(cMsgs 20).drop 1`); the code pins the oldest
entry `cMsg 0` at index 0 and drops the second-oldest instead. -/
theorem eviction_counterexample :
    (cMsgs 20).foldl addToContext (initContext "") =
      cMsg 0 :: (cMsgs 20).drop 2 ∧
    (cMsgs 20).foldl addToContext (initContext "") ≠ (cMsgs 20).drop 1 := by
  constructor
  · decide
  · decide

/-- C2 (amended): whenever an append would make the window exceed `N = 19`,
the entry at index 0 is retained at the front — the persona when one was
configured, and otherwise the very first appended entry, which the code pins
exactly like a persona — followed by the 18 most recently appended entries
in insertion order.  In particular, initialising with persona `"P"` and then
appending 25 entries one at a time leaves exactly 19 entries: the persona at
index 0 followed by the 18 most recent entries in original order. -/
theorem eviction_retains_front_and_recent :
    (∀ (p : String) (msgs : List Message), p ≠ "" →
      msgs.foldl addToContext (initContext p) =
        ⟨"system", p⟩ :: msgs.drop (msgs.length - 18)) ∧
    (∀ (m : Message) (msgs : List Message),
      (m :: msgs).foldl addToContext (initContext "") =
        m :: msgs.drop (msgs.length - 18)) := by
  constructor
  · intro p msgs hp
    have hinit : initContext p = [⟨"system", p⟩] := by simp [initContext, hp]
    rw [hinit, foldl_addToContext_cons msgs ⟨"system", p⟩ [] (by simp)]
    simp
  · intro m msgs
    have hinit : initContext "" = [] := by simp [initContext]
    have h1 : addToContext [] m = [m] := by
      rw [addToContext_small m (by simp)]
      simp
    rw [List.foldl_cons, hinit, h1,
      foldl_addToContext_cons msgs m [] (by simp)]
    simp

/-- Witness for C2: the spec's 25-append example, persona `"P"` then 25
appends leave the persona at index 0 followed by the 18 most recent
entries (`drop (25 - 18)`). -/
theorem eviction_retains_front_and_recent_witness :
    (cMsgs 25).foldl addToContext (initContext "P") =
      ⟨"system", "P"⟩ :: (cMsgs 25).drop ((cMsgs 25).length - 18) :=
  eviction_retains_front_and_recent.1 "P" (cMsgs 25) (by decide)

/-! ## Claim C5 -/

/-- On a failed generator call the round trip returns the error with only
the user entry appended. -/
theorem getAIResponse_failed {gen : GenResult} (hfail : genFails gen = true)
    (ctx : List Message) (message fromNick : String) :
    getAIResponse ctx message fromNick gen =
      (addToContext ctx ⟨"user", fromNick ++ ": " ++ message⟩, none) := by
  cases gen with
  | transportError => rfl
  | status code body =>
    have hc : code ≠ 200 := by simpa [genFails] using hfail
    simp [getAIResponse, hc]

/-- C5: for every respond round trip in which the external generator call
fails (transport error or non-success status), the operation aborts with a
failure result: the user entry appended in step 1 remains in the context
(not rolled back), no assistant entry is appended, and no outbound message
is sent. -/
theorem failed_roundtrip_aborts :
    ∀ (ctx : List Message) (message fromNick : String) (gen : GenResult),
      genFails gen = true →
      getAIResponse ctx message fromNick gen =
        (addToContext ctx ⟨"user", fromNick ++ ": " ++ message⟩, none) ∧
      ∀ (cfg : Config) (sender target : String),
        (handleMessage cfg ctx sender target message gen).2 = [] := by
  intro ctx message fromNick gen hfail
  refine ⟨getAIResponse_failed hfail ctx message fromNick, ?_⟩
  intro cfg sender target
  unfold handleMessage
  by_cases hs : sender = cfg.nick
  · simp [hs]
  · simp only [if_neg hs]
    by_cases hr : (decide (target = cfg.nick) ||
        shouldRespondToMessage cfg message) = true
    · simp only [hr, if_true]
      rw [getAIResponse_failed hfail]
    · simp only [Bool.not_eq_true] at hr
      simp [hr]

/-- Witness for C5 at a concrete failed transport call. -/
theorem failed_roundtrip_aborts_witness :
    getAIResponse [] "hi" "alice" .transportError =
      (addToContext [] ⟨"user", "alice" ++ ": " ++ "hi"⟩, none) ∧
    (handleMessage ⟨"Steve", none⟩ [] "alice" "#c" "hi"
        .transportError).2 = [] :=
  ⟨(failed_roundtrip_aborts [] "hi" "alice" .transportError rfl).1,
   (failed_roundtrip_aborts [] "hi" "alice" .transportError rfl).2
     ⟨"Steve", none⟩ "alice" "#c"⟩

/-! ## Claim C6 -/

/-- Spec-side rendering: each entry as `"<RoleLabel>: <content>\n"` in
insertion order. -/
def renderAll : List Message → String
  | [] => ""
  | m :: t => renderEntry m ++ renderAll t

theorem buildPrompt_step_eq (m : Message) (acc : String)
    (h : m.role = "system" ∨ m.role = "user" ∨ m.role = "assistant") :
    (if m.role = "system" then acc ++ "System: " ++ m.content ++ "\n"
     else if m.role = "user" then acc ++ "User: " ++ m.content ++ "\n"
     else if m.role = "assistant" then acc ++ "Assistant: " ++ m.content ++ "\n"
     else acc) = acc ++ renderEntry m := by
  rcases h with h1 | h1 | h1 <;>
    simp only [h1, renderEntry, roleLabel, if_pos, if_neg, reduceIte,
      String.append_assoc] <;>
    rfl

theorem buildPrompt_foldl_eq (ctx : List Message)
    (h : ∀ m ∈ ctx,
      m.role = "system" ∨ m.role = "user" ∨ m.role = "assistant") :
    ∀ acc : String,
      ctx.foldl (fun acc m =>
        if m.role = "system" then acc ++ "System: " ++ m.content ++ "\n"
        else if m.role = "user" then acc ++ "User: " ++ m.content ++ "\n"
        else if m.role = "assistant" then
          acc ++ "Assistant: " ++ m.content ++ "\n"
        else acc) acc = acc ++ renderAll ctx := by
  induction ctx with
  | nil =>
    intro acc
    simp [renderAll]
  | cons m t ih =>
    intro acc
    rw [List.foldl_cons, buildPrompt_step_eq m acc (h m (by simp)),
      ih (fun x hx => h x (by simp [hx])), renderAll, String.append_assoc]

/-- C6: for every window whose entries carry the roles the program creates,
`buildPrompt` produces the string rendering each entry in insertion order as
the fixed capitalized role label (`System` for persona, `User`, `Assistant`)
followed by `": "`, the content and a newline, then the trailing cue
`"Assistant: "` with no newline.  The embedding is a pure function of the
window, so serialization does not mutate it. -/
theorem buildPrompt_renders_window (ctx : List Message)
    (h : ∀ m ∈ ctx,
      m.role = "system" ∨ m.role = "user" ∨ m.role = "assistant") :
    buildPrompt ctx = renderAll ctx ++ "Assistant: " := by
  unfold buildPrompt
  rw [buildPrompt_foldl_eq ctx h "", String.empty_append]

/-- Witness for C6 at a concrete three-entry window. -/
theorem buildPrompt_renders_window_witness :
    buildPrompt [⟨"system", "P"⟩, ⟨"user", "alice: hi"⟩, ⟨"assistant", "yo"⟩] =
      renderAll [⟨"system", "P"⟩, ⟨"user", "alice: hi"⟩, ⟨"assistant", "yo"⟩] ++
        "Assistant: " :=
  buildPrompt_renders_window _ (by decide)

/-! ## Claim C7 -/

/-- C7: `shouldEngage` is true iff the message was directed one-to-one to
the bot, or the text contains the bot's nick case-insensitively, or a
configured trigger pattern is present and matches; the two concrete examples
of the specification; and when `shouldEngage` is false the handler ignores
the message with no state change and no sends (and a result independent of
the generator, i.e. no generator call). -/
theorem engage_iff :
    (∀ (m n : String) (d : Bool) (p : Option (String → Bool)),
      shouldEngage m n d p = true ↔
        (d = true ∨ containsL (toLowerL m.data) (toLowerL n.data) = true ∨
          ∃ f, p = some f ∧ f m = true)) ∧
    shouldEngage "anyone seen steve?" "Steve" false none = true ∧
    shouldEngage "just chatting" "Steve" false none = false ∧
    (∀ (cfg : Config) (ctx : List Message) (sender target message : String)
      (gen : GenResult),
      shouldEngage message cfg.nick (decide (target = cfg.nick))
          cfg.triggerPattern = false →
      handleMessage cfg ctx sender target message gen = (ctx, [])) := by
  refine ⟨?_, by decide, by decide, ?_⟩
  · intro m n d p
    cases d <;> cases p <;>
      by_cases hcon : containsL (toLowerL m.data) (toLowerL n.data) = true <;>
      simp [shouldEngage, shouldRespondToMessage, hcon]
  · intro cfg ctx sender target message gen h
    have hcfg : (⟨cfg.nick, cfg.triggerPattern⟩ : Config) = cfg := rfl
    unfold shouldEngage at h
    rw [hcfg] at h
    unfold handleMessage
    by_cases hs : sender = cfg.nick
    · simp [hs]
    · simp [if_neg hs, h]

/-- Witness for C7: a non-engaging message is ignored outright. -/
theorem engage_iff_witness :
    handleMessage ⟨"Steve", none⟩ [] "alice" "#chan" "just chatting"
      .transportError = ([], []) :=
  engage_iff.2.2.2 ⟨"Steve", none⟩ [] "alice" "#chan" "just chatting"
    .transportError (by decide)

/-! ## Claim C8 -/

/-- C8: `cleanMessage` removes every case-insensitive occurrence of the nick
immediately followed by `':'` or `','` and optional white space, trims the
result, and substitutes the fixed non-empty filler `"Hello!"` when the
result is empty — so its output is never empty; with the two concrete
examples of the specification. -/
theorem cleanMessage_spec :
    (∀ (nick message : String),
      cleanMessage nick message =
        if String.mk (goTrimSpaceL (removeMentions nick.data message.data))
            = "" then "Hello!"
        else String.mk (goTrimSpaceL (removeMentions nick.data message.data))) ∧
    (∀ (nick message : String), cleanMessage nick message ≠ "") ∧
    cleanMessage "Steve" "Steve: hello there" = "hello there" ∧
    cleanMessage "Steve" "Steve," = "Hello!" := by
  refine ⟨fun n m => rfl, ?_, by decide, by decide⟩
  intro n m
  show (if String.mk (goTrimSpaceL (removeMentions n.data m.data)) = ""
      then "Hello!"
      else String.mk (goTrimSpaceL (removeMentions n.data m.data))) ≠ ""
  split
  · decide
  · rename_i hne
    exact hne

/-- Witness for C8: the cleaned message is never empty. -/
theorem cleanMessage_spec_witness :
    cleanMessage "Bob" "  " ≠ "" :=
  cleanMessage_spec.2.1 "Bob" "  "

/-! ## Claim C10 -/

/-- C10: an inbound message whose sender nick equals the bot's own nick is
ignored completely: no reply is generated or sent and the context is
unchanged, regardless of the message text, the target, or what the
generator would have returned. -/
theorem self_messages_ignored :
    ∀ (cfg : Config) (ctx : List Message)
      (sender target message : String) (gen : GenResult),
      sender = cfg.nick →
      handleMessage cfg ctx sender target message gen = (ctx, []) := by
  intro cfg ctx sender target message gen h
  unfold handleMessage
  rw [if_pos h]

/-- Witness for C10: a self-directed self-mentioning message is ignored. -/
theorem self_messages_ignored_witness :
    handleMessage ⟨"Steve", none⟩ [⟨"system", "P"⟩] "Steve" "Steve"
      "Steve: hi" (.status 200 "yo") = ([⟨"system", "P"⟩], []) :=
  self_messages_ignored ⟨"Steve", none⟩ [⟨"system", "P"⟩] "Steve" "Steve"
    "Steve: hi" (.status 200 "yo") rfl

/-! ## Lemmas on `strings.Fields` -/

theorem fieldsL_nil : fieldsL [] = [] := rfl

/-- A white-space character inside the input splits `fieldsAux` exactly like
the end of the input. -/
theorem fieldsAux_sep {sep : Char} (hsep : isSpaceGo sep = true)
    (a : List Char) : ∀ (acc b : List Char),
    fieldsAux acc (a ++ sep :: b) = fieldsAux acc a ++ fieldsAux [] b := by
  induction a with
  | nil =>
    intro acc b
    by_cases hacc : acc = [] <;>
      simp [fieldsAux, hsep, hacc]
  | cons x a' ih =>
    intro acc b
    by_cases hx : isSpaceGo x = true
    · by_cases hacc : acc = [] <;>
        simp [fieldsAux, hx, hacc, ih]
    · have hx' : isSpaceGo x = false := by
        cases h : isSpaceGo x
        · rfl
        · exact absurd h hx
      simp [fieldsAux, hx', ih]

/-- Every field is non-empty and free of white space. -/
theorem fieldsAux_wordlike (l : List Char) : ∀ (acc : List Char),
    (∀ ch ∈ acc, isSpaceGo ch = false) →
    ∀ w ∈ fieldsAux acc l, w ≠ [] ∧ ∀ ch ∈ w, isSpaceGo ch = false := by
  induction l with
  | nil =>
    intro acc hacc w hw
    by_cases hacc0 : acc = []
    · simp [fieldsAux, hacc0] at hw
    · simp [fieldsAux, hacc0] at hw
      subst hw
      refine ⟨by simpa using hacc0, ?_⟩
      intro ch hch
      exact hacc ch (by simpa using hch)
  | cons c t ih =>
    intro acc hacc w hw
    by_cases hc : isSpaceGo c = true
    · by_cases hacc0 : acc = []
      · rw [hacc0] at hw
        simp only [fieldsAux, hc, if_true, if_pos rfl] at hw
        exact ih [] (by simp) w hw
      · simp only [fieldsAux, hc, if_true, if_neg hacc0, List.mem_cons] at hw
        rcases hw with hw | hw
        · subst hw
          refine ⟨by simpa using hacc0, ?_⟩
          intro ch hch
          exact hacc ch (by simpa using hch)
        · exact ih [] (by simp) w hw
    · have hc' : isSpaceGo c = false := by
        cases h : isSpaceGo c
        · rfl
        · exact absurd h hc
      simp only [fieldsAux, hc', Bool.false_eq_true, if_false] at hw
      refine ih (c :: acc) ?_ w hw
      intro ch hch
      rcases List.mem_cons.mp hch with h | h
      · subst h; exact hc'
      · exact hacc ch h

/-- Every field of `fieldsL` is a non-empty white-space-free word. -/
theorem fieldsL_wordlike (l : List Char) :
    ∀ w ∈ fieldsL l, w ≠ [] ∧ ∀ ch ∈ w, isSpaceGo ch = false :=
  fieldsAux_wordlike l [] (by simp)

theorem fieldsAux_all_word (w : List Char) : ∀ acc : List Char,
    (∀ ch ∈ w, isSpaceGo ch = false) → (acc ≠ [] ∨ w ≠ []) →
    fieldsAux acc w = [acc.reverse ++ w] := by
  induction w with
  | nil =>
    intro acc _ hne
    rcases hne with hne | hne
    · simp [fieldsAux, hne]
    · exact absurd rfl hne
  | cons c t ih =>
    intro acc h _
    have hc : isSpaceGo c = false := h c (by simp)
    simp only [fieldsAux, hc, Bool.false_eq_true, if_false]
    rw [ih (c :: acc) (fun ch hch => h ch (by simp [hch]))
      (Or.inl (by simp))]
    simp

/-- `strings.Fields` of a single white-space-free word is that word. -/
theorem fieldsL_word {w : List Char} (h1 : w ≠ [])
    (h2 : ∀ ch ∈ w, isSpaceGo ch = false) : fieldsL w = [w] := by
  unfold fieldsL
  rw [fieldsAux_all_word w [] h2 (Or.inr h1)]
  simp

theorem fieldsL_append_sep (cur s : List Char) :
    fieldsL (cur ++ ' ' :: s) = fieldsL cur ++ fieldsL s :=
  fieldsAux_sep (by decide) cur [] s

theorem wordsOfChunks_append (xs ys : List (List Char)) :
    wordsOfChunks (xs ++ ys) = wordsOfChunks xs ++ wordsOfChunks ys := by
  simp [wordsOfChunks]

/-- Rejoining with single spaces and re-splitting into words recovers the
concatenated word sequences of the chunks. -/
theorem fieldsL_joinSp (xs : List (List Char)) :
    fieldsL (joinSp xs) = wordsOfChunks xs := by
  induction xs with
  | nil => simp [joinSp, wordsOfChunks, fieldsL_nil]
  | cons a t ih =>
    cases t with
    | nil => simp [joinSp, wordsOfChunks]
    | cons b t' =>
      rw [joinSp, fieldsL_append_sep, ih]
      simp [wordsOfChunks]

/-! ## Segmentation preserves the word sequence (up to the sentence split) -/

theorem stepWordL_words (maxLen : Nat) (st : List (List Char) × List Char)
    (w : List Char) (hw1 : w ≠ []) (hw2 : ∀ ch ∈ w, isSpaceGo ch = false) :
    wordsOfSt (stepWordL maxLen st w) = wordsOfSt st ++ [w] := by
  obtain ⟨out, cur⟩ := st
  unfold stepWordL wordsOfSt
  by_cases hfit : cur.length + w.length + 1 ≤ maxLen
  · rw [if_pos hfit]
    by_cases hcur : cur = []
    · simp [hcur, fieldsL_word hw1 hw2, fieldsL_nil]
    · rw [if_neg hcur]
      simp only []
      rw [fieldsL_append_sep, fieldsL_word hw1 hw2]
      simp
  · rw [if_neg hfit]
    by_cases hcur : cur = []
    · simp [hcur, fieldsL_word hw1 hw2, fieldsL_nil]
    · rw [if_neg hcur]
      simp only []
      rw [fieldsL_word hw1 hw2, wordsOfChunks_append]
      simp [wordsOfChunks]

theorem foldl_stepWordL_words (maxLen : Nat) (ws : List (List Char)) :
    ∀ st, (∀ w ∈ ws, w ≠ [] ∧ ∀ ch ∈ w, isSpaceGo ch = false) →
    wordsOfSt (ws.foldl (stepWordL maxLen) st) = wordsOfSt st ++ ws := by
  induction ws with
  | nil =>
    intro st _
    simp
  | cons w ws' ih =>
    intro st h
    rw [List.foldl_cons, ih _ (fun x hx => h x (by simp [hx])),
      stepWordL_words maxLen st w (h w (by simp)).1 (h w (by simp)).2]
    simp

theorem stepSentL_words (maxLen : Nat) (st : List (List Char) × List Char)
    (s : List Char) :
    wordsOfSt (stepSentL maxLen st s) = wordsOfSt st ++ fieldsL s := by
  obtain ⟨out, cur⟩ := st
  unfold stepSentL
  by_cases hfit : cur.length + s.length + 1 ≤ maxLen
  · rw [if_pos hfit]
    by_cases hcur : cur = []
    · simp [hcur, wordsOfSt, fieldsL_nil]
    · rw [if_neg hcur]
      simp only [wordsOfSt]
      rw [fieldsL_append_sep]
      simp
  · rw [if_neg hfit]
    by_cases hlong : maxLen < s.length
    · rw [if_pos hlong]
      rw [foldl_stepWordL_words maxLen (fieldsL s) _ (fieldsL_wordlike s)]
      by_cases hcur : cur = []
      · simp [hcur, wordsOfSt, fieldsL_nil]
      · rw [if_neg hcur]
        simp [wordsOfSt, fieldsL_nil, wordsOfChunks_append, wordsOfChunks]
    · rw [if_neg hlong]
      by_cases hcur : cur = []
      · simp [hcur, wordsOfSt, fieldsL_nil]
      · rw [if_neg hcur]
        simp [wordsOfSt, wordsOfChunks_append, wordsOfChunks]

theorem foldl_stepSentL_words (maxLen : Nat) (ss : List (List Char)) :
    ∀ st, wordsOfSt (ss.foldl (stepSentL maxLen) st) =
      wordsOfSt st ++ wordsOfChunks ss := by
  induction ss with
  | nil =>
    intro st
    simp [wordsOfChunks]
  | cons s ss' ih =>
    intro st
    rw [List.foldl_cons, ih, stepSentL_words]
    simp [wordsOfChunks]

/-- When the text is longer than the budget, the emitted chunks carry
exactly the word sequence of the sentence fragments. -/
theorem segmentL_words (maxLen : Nat) (text : List Char)
    (h : maxLen < text.length) :
    wordsOfChunks (segmentL maxLen text) = wordsOfChunks (splitSentL text) := by
  unfold segmentL
  rw [if_neg (by omega)]
  simp only []
  have hw := foldl_stepSentL_words maxLen (splitSentL text) ([], [])
  by_cases hcur : ((splitSentL text).foldl (stepSentL maxLen) ([], [])).2 = []
  · rw [if_pos hcur]
    have h1 : wordsOfSt ((splitSentL text).foldl (stepSentL maxLen) ([], [])) =
        wordsOfChunks ((splitSentL text).foldl (stepSentL maxLen) ([], [])).1 := by
      simp [wordsOfSt, hcur, fieldsL_nil]
    rw [← h1, hw]
    simp [wordsOfSt, wordsOfChunks, fieldsL_nil]
  · rw [if_neg hcur]
    have h1 : wordsOfChunks
          (((splitSentL text).foldl (stepSentL maxLen) ([], [])).1 ++
            [((splitSentL text).foldl (stepSentL maxLen) ([], [])).2]) =
        wordsOfSt ((splitSentL text).foldl (stepSentL maxLen) ([], [])) := by
      simp [wordsOfSt, wordsOfChunks_append, wordsOfChunks]
    rw [h1, hw]
    simp [wordsOfSt, wordsOfChunks, fieldsL_nil]

/-! ## Chunk invariants of the segmentation loop -/

theorem flush_ok {maxLen : Nat} {out : List (List Char)} {cur : List Char}
    (hout : ∀ c ∈ out, ChunkOK maxLen c)
    (hcur : cur = [] ∨ ChunkOK maxLen cur) :
    ∀ c ∈ (if cur = [] then out else out ++ [cur]), ChunkOK maxLen c := by
  intro c hc
  by_cases h0 : cur = []
  · rw [if_pos h0] at hc
    exact hout c hc
  · rw [if_neg h0] at hc
    rcases List.mem_append.mp hc with h | h
    · exact hout c h
    · have hcc : c = cur := by simpa using h
      subst hcc
      exact hcur.resolve_left h0

theorem stepWordL_ok (maxLen : Nat) (st : List (List Char) × List Char)
    (w : List Char) (hw1 : w ≠ []) (hw2 : ∀ ch ∈ w, isSpaceGo ch = false)
    (hst : StOK maxLen st) : StOK maxLen (stepWordL maxLen st w) := by
  obtain ⟨out, cur⟩ := st
  obtain ⟨hout, hcur⟩ := hst
  unfold stepWordL
  by_cases hfit : cur.length + w.length + 1 ≤ maxLen
  · rw [if_pos hfit]
    refine ⟨hout, Or.inr ?_⟩
    by_cases hc : cur = []
    · rw [if_pos hc]
      exact Or.inr ⟨hw1, hw2⟩
    · rw [if_neg hc]
      refine Or.inl ?_
      simp only [List.length_append, List.length_cons]
      omega
  · rw [if_neg hfit]
    exact ⟨flush_ok hout hcur, Or.inr (Or.inr ⟨hw1, hw2⟩)⟩

theorem foldl_stepWordL_ok (maxLen : Nat) (ws : List (List Char)) :
    ∀ st, (∀ w ∈ ws, w ≠ [] ∧ ∀ ch ∈ w, isSpaceGo ch = false) →
      StOK maxLen st → StOK maxLen (ws.foldl (stepWordL maxLen) st) := by
  induction ws with
  | nil =>
    intro st _ hst
    simpa using hst
  | cons w ws' ih =>
    intro st h hst
    rw [List.foldl_cons]
    exact ih _ (fun x hx => h x (by simp [hx]))
      (stepWordL_ok maxLen st w (h w (by simp)).1 (h w (by simp)).2 hst)

theorem stepSentL_ok (maxLen : Nat) (st : List (List Char) × List Char)
    (s : List Char) (hst : StOK maxLen st) :
    StOK maxLen (stepSentL maxLen st s) := by
  obtain ⟨out, cur⟩ := st
  obtain ⟨hout, hcur⟩ := hst
  unfold stepSentL
  by_cases hfit : cur.length + s.length + 1 ≤ maxLen
  · rw [if_pos hfit]
    refine ⟨hout, Or.inr ?_⟩
    by_cases hc : cur = []
    · rw [if_pos hc]
      rw [hc] at hfit
      simp only [List.length_nil] at hfit
      have hs : s.length ≤ maxLen := by omega
      exact Or.inl hs
    · rw [if_neg hc]
      have hs : (cur ++ ' ' :: s).length ≤ maxLen := by
        simp only [List.length_append, List.length_cons]
        omega
      exact Or.inl hs
  · rw [if_neg hfit]
    by_cases hlong : maxLen < s.length
    · rw [if_pos hlong]
      exact foldl_stepWordL_ok maxLen (fieldsL s) _ (fieldsL_wordlike s)
        ⟨flush_ok hout hcur, Or.inl rfl⟩
    · rw [if_neg hlong]
      have hs : s.length ≤ maxLen := by omega
      exact ⟨flush_ok hout hcur, Or.inr (Or.inl hs)⟩

theorem foldl_stepSentL_ok (maxLen : Nat) (ss : List (List Char)) :
    ∀ st, StOK maxLen st → StOK maxLen (ss.foldl (stepSentL maxLen) st) := by
  induction ss with
  | nil =>
    intro st hst
    simpa using hst
  | cons s ss' ih =>
    intro st hst
    rw [List.foldl_cons]
    exact ih _ (stepSentL_ok maxLen st s hst)

theorem flush_ne {out : List (List Char)} {cur : List Char}
    (hout : ∀ c ∈ out, c ≠ []) :
    ∀ c ∈ (if cur = [] then out else out ++ [cur]), c ≠ [] := by
  intro c hc
  by_cases h0 : cur = []
  · rw [if_pos h0] at hc
    exact hout c hc
  · rw [if_neg h0] at hc
    rcases List.mem_append.mp hc with h | h
    · exact hout c h
    · have hcc : c = cur := by simpa using h
      subst hcc
      exact h0

theorem stepWordL_ne (maxLen : Nat) (st : List (List Char) × List Char)
    (w : List Char) (h : OutNonempty st) :
    OutNonempty (stepWordL maxLen st w) := by
  obtain ⟨out, cur⟩ := st
  unfold stepWordL
  by_cases hfit : cur.length + w.length + 1 ≤ maxLen
  · rw [if_pos hfit]
    exact h
  · rw [if_neg hfit]
    exact flush_ne h

theorem foldl_stepWordL_ne (maxLen : Nat) (ws : List (List Char)) :
    ∀ st, OutNonempty st → OutNonempty (ws.foldl (stepWordL maxLen) st) := by
  induction ws with
  | nil =>
    intro st hst
    simpa using hst
  | cons w ws' ih =>
    intro st hst
    rw [List.foldl_cons]
    exact ih _ (stepWordL_ne maxLen st w hst)

theorem stepSentL_ne (maxLen : Nat) (st : List (List Char) × List Char)
    (s : List Char) (h : OutNonempty st) :
    OutNonempty (stepSentL maxLen st s) := by
  obtain ⟨out, cur⟩ := st
  unfold stepSentL
  by_cases hfit : cur.length + s.length + 1 ≤ maxLen
  · rw [if_pos hfit]
    exact h
  · rw [if_neg hfit]
    by_cases hlong : maxLen < s.length
    · rw [if_pos hlong]
      exact foldl_stepWordL_ne maxLen (fieldsL s) _ (flush_ne h)
    · rw [if_neg hlong]
      exact flush_ne h

theorem foldl_stepSentL_ne (maxLen : Nat) (ss : List (List Char)) :
    ∀ st, OutNonempty st → OutNonempty (ss.foldl (stepSentL maxLen) st) := by
  induction ss with
  | nil =>
    intro st hst
    simpa using hst
  | cons s ss' ih =>
    intro st hst
    rw [List.foldl_cons]
    exact ih _ (stepSentL_ne maxLen st s hst)

/-! ## Claim C3 -/

/-- C3: for every input text and every length budget, every chunk produced
by segmentation has length at most `maxLen`, except that a chunk that is a
single word (non-empty and containing no white space) may exceed it, since
words are never split mid-word (`ChunkOK`). -/
theorem segment_chunk_fits_or_single_word :
    ∀ (maxLen : Nat) (text : List Char), ∀ c ∈ segmentL maxLen text,
      ChunkOK maxLen c := by
  intro maxLen text c hc
  unfold segmentL at hc
  by_cases hlen : text.length ≤ maxLen
  · rw [if_pos hlen] at hc
    have hct : c = text := by simpa using hc
    subst hct
    exact Or.inl hlen
  · rw [if_neg hlen] at hc
    simp only [] at hc
    obtain ⟨hout, hcur⟩ :
        StOK maxLen ((splitSentL text).foldl (stepSentL maxLen) ([], [])) :=
      foldl_stepSentL_ok maxLen (splitSentL text) ([], []) ⟨by simp, Or.inl rfl⟩
    by_cases h2 : ((splitSentL text).foldl (stepSentL maxLen) ([], [])).2 = []
    · rw [if_pos h2] at hc
      exact hout c hc
    · rw [if_neg h2] at hc
      rcases List.mem_append.mp hc with h | h
      · exact hout c h
      · have hcc : c = ((splitSentL text).foldl (stepSentL maxLen) ([], [])).2 := by
          simpa using h
        subst hcc
        exact hcur.resolve_left h2

/-- Witness for C3: at budget 2, the oversized word `"abcde"` is emitted as
a chunk of its own, unsplit. -/
theorem segment_chunk_fits_or_single_word_witness :
    "abcde".data ∈ segmentL 2 "abcde fg".data ∧ ChunkOK 2 "abcde".data :=
  ⟨by decide,
   segment_chunk_fits_or_single_word 2 "abcde fg".data "abcde".data (by decide)⟩

/-! ## Claim C4 -/

/-- C4 counterexample: the sentence splitter deletes the terminator runs it
matches, so rejoining the chunks of `segment "aa. bb" 3` with single spaces
yields `"aa bb"`: the non-whitespace character `'.'` of the input is absent
from the emitted chunks, and no intra-whitespace normalization can recover
it. -/
theorem segment_drops_terminators :
    String.intercalate " " (segment "aa. bb" 3) = "aa bb" ∧
    '.' ∈ "aa. bb".data ∧ '.'.isWhitespace = false ∧ '.' ∉ "aa bb".data :=
  ⟨by decide, by decide, by decide, by decide⟩

/-- C4 (amended): when the text fits the budget it is reproduced exactly as
the single chunk; when it does not, rejoining the chunks with single spaces
reconstructs the text up to intra-whitespace normalization AND up to the
deletion of the sentence-terminator runs consumed by the sentence split
(`[.!?]+` immediately followed by white space): the word sequence of the
rejoined chunks equals the word sequence of the rejoined sentence
fragments. -/
theorem segment_rejoins_fragments (text : List Char) (maxLen : Nat) :
    (text.length ≤ maxLen → segmentL maxLen text = [text]) ∧
    (maxLen < text.length →
      fieldsL (joinSp (segmentL maxLen text)) =
        fieldsL (joinSp (splitSentL text))) := by
  constructor
  · intro h
    unfold segmentL
    rw [if_pos h]
  · intro h
    rw [fieldsL_joinSp, fieldsL_joinSp]
    exact segmentL_words maxLen text h

/-- Witness for C4: a short text is reproduced exactly; a split text keeps
its word sequence. -/
theorem segment_rejoins_fragments_witness :
    segmentL 10 "hello".data = ["hello".data] ∧
    fieldsL (joinSp (segmentL 3 "aa. bb".data)) =
      fieldsL (joinSp (splitSentL "aa. bb".data)) :=
  ⟨(segment_rejoins_fragments "hello".data 10).1 (by decide),
   (segment_rejoins_fragments "aa. bb".data 3).2 (by decide)⟩

/-! ## Claim C9 -/

/-- C9 counterexample: `segment` on the empty text emits one empty chunk
(the empty string satisfies `len(text) ≤ maxLen` and is sent as-is), not
zero chunks. -/
theorem segment_empty_one_chunk :
    segment "" 400 = [""] ∧ ([""] : List String) ≠ [] :=
  ⟨by decide, by decide⟩

/-- C9 (amended): segmentation never produces an empty chunk when the input
text is non-empty; on the empty input it produces exactly one chunk, the
empty text itself (emitted whole by the short-input case). -/
theorem segment_no_empty_chunks :
    (∀ (maxLen : Nat) (text : List Char), text ≠ [] →
      ∀ c ∈ segmentL maxLen text, c ≠ []) ∧
    (∀ maxLen : Nat, segmentL maxLen [] = [[]]) := by
  constructor
  · intro maxLen text htext c hc
    unfold segmentL at hc
    by_cases hlen : text.length ≤ maxLen
    · rw [if_pos hlen] at hc
      have hct : c = text := by simpa using hc
      subst hct
      exact htext
    · rw [if_neg hlen] at hc
      simp only [] at hc
      have hout :
          OutNonempty ((splitSentL text).foldl (stepSentL maxLen) ([], [])) :=
        foldl_stepSentL_ne maxLen (splitSentL text) ([], []) (by simp [OutNonempty])
      by_cases h2 : ((splitSentL text).foldl (stepSentL maxLen) ([], [])).2 = []
      · rw [if_pos h2] at hc
        exact hout c hc
      · rw [if_neg h2] at hc
        rcases List.mem_append.mp hc with h | h
        · exact hout c h
        · have hcc : c = ((splitSentL text).foldl (stepSentL maxLen) ([], [])).2 := by
            simpa using h
          subst hcc
          exact h2
  · intro maxLen
    unfold segmentL
    rw [if_pos (by simp)]

/-- Witness for C9: a non-empty text yields only non-empty chunks. -/
theorem segment_no_empty_chunks_witness :
    "hi".data ∈ segmentL 400 "hi".data ∧ "hi".data ≠ [] :=
  ⟨by decide,
   segment_no_empty_chunks.1 400 "hi".data (by decide) "hi".data (by decide)⟩

end Chatbot
